import Mathlib

/-!
Shallow embedding of the live audio/video session pipeline of this
repository (the `LiveSession` component): base64 uplink text encoding
(`encode`, via the platform `btoa`) and downlink decoding (`decode`, via
`atob`), PCM pack/unpack (`createBlob`, `decodeAudioData`), the playback
scheduling performed by the inbound `onmessage` handler around the
`nextStartTime` playback cursor, the session status state machine driven by
the lifecycle callbacks, and the `startSession` control flow.

JS strings are modelled as `List Char`; byte arrays (`Uint8Array`) as
`List ℕ` with every entry `< 256`; `Int16Array` entries as `ℤ` in
`[-32768, 32767]`; audio samples and clock readings as `ℚ` (every IEEE
float value is a rational, and the scale factors 32768 and 24000 are exact
in the source's arithmetic at the ranges involved).  Thrown platform
exceptions are modelled by `Option`/`Bool` error results.
-/

namespace LiveSession

/-! ### Base64: model of the platform `btoa`/`atob` used by `encode`/`decode`

The source's `encode` turns a `Uint8Array` into a binary string (one char
per byte) and calls `btoa`; `decode` calls `atob` and reads the char codes
back into a `Uint8Array`.  So at the byte level `encode` is standard base64
encoding with `=` padding and `decode` is forgiving base64 decoding
(strip trailing padding, map chars to sextets — failing on a char outside
the alphabet —, regroup bits, discarding leftover bits; a group of one
lone sextet is invalid). -/

def b64Table : List Char :=
  "ABCDEFGHIJKLMNOPQRSTUVWXYZabcdefghijklmnopqrstuvwxyz0123456789+/".toList

def b64Char (n : ℕ) : Char := b64Table.getD n 'A'

def b64Index (c : Char) : Option ℕ := b64Table.findIdx? (fun x => x == c)

/-- `btoa` on the binary string holding the given bytes, 3 bytes → 4 chars,
with `=` padding on a trailing group of 1 or 2 bytes. -/
def encode : List ℕ → List Char
  | [] => []
  | [a] => [b64Char (a / 4), b64Char (a % 4 * 16), '=', '=']
  | [a, b] => [b64Char (a / 4), b64Char (a % 4 * 16 + b / 16), b64Char (b % 16 * 4), '=']
  | a :: b :: c :: rest =>
    b64Char (a / 4) :: b64Char (a % 4 * 16 + b / 16) ::
      b64Char (b % 16 * 4 + c / 64) :: b64Char (c % 64) :: encode rest

/-- Remove the trailing `=` padding, as forgiving base64 decoding does. -/
def stripPad (s : List Char) : List Char :=
  (s.reverse.dropWhile (fun c => c == '=')).reverse

/-- Map every character to its alphabet index; `none` if some character is
outside the alphabet (where `atob` throws). -/
def toSextets : List Char → Option (List ℕ)
  | [] => some []
  | c :: rest =>
    match b64Index c, toSextets rest with
    | some s, some ss => some (s :: ss)
    | _, _ => none

/-- Regroup sextets into bytes: 4 sextets → 3 bytes; a trailing group of 2
or 3 sextets yields 1 or 2 bytes (leftover low bits discarded); a trailing
group of a single sextet is malformed (`atob` throws). -/
def sextetsToBytes : List ℕ → Option (List ℕ)
  | [] => some []
  | [_] => none
  | [s1, s2] => some [s1 * 4 + s2 / 16]
  | [s1, s2, s3] => some [s1 * 4 + s2 / 16, s2 % 16 * 16 + s3 / 4]
  | s1 :: s2 :: s3 :: s4 :: rest =>
    match sextetsToBytes rest with
    | none => none
    | some bs => some ((s1 * 4 + s2 / 16) :: (s2 % 16 * 16 + s3 / 4) :: (s3 % 4 * 64 + s4) :: bs)

/-- `atob` followed by reading the char codes into a `Uint8Array`, i.e. the
source's `decode`; `none` models a thrown `InvalidCharacterError`. -/
def decode (s : List Char) : Option (List ℕ) :=
  (toSextets (stripPad s)).bind sextetsToBytes

/-! ### Helper lemmas for the base64 round trip -/

theorem b64Index_b64Char_fin : ∀ n : Fin 64, b64Index (b64Char n.val) = some n.val := by
  decide

theorem b64Char_ne_pad_fin : ∀ n : Fin 64, (b64Char n.val == '=') = false := by
  decide

theorem b64Index_b64Char (n : ℕ) (hn : n < 64) : b64Index (b64Char n) = some n := by
  have := b64Index_b64Char_fin ⟨n, hn⟩
  simpa using this

theorem b64Char_ne_pad (n : ℕ) (hn : n < 64) : (b64Char n == '=') = false := by
  have := b64Char_ne_pad_fin ⟨n, hn⟩
  simpa using this

/-- Induction in chunks of three, matching `encode`'s recursion. -/
theorem chunk3_induction {P : List ℕ → Prop} (h0 : P []) (h1 : ∀ a, P [a])
    (h2 : ∀ a b, P [a, b])
    (h3 : ∀ a b c rest, P rest → P (a :: b :: c :: rest)) : ∀ l, P l
  | [] => h0
  | [a] => h1 a
  | [a, b] => h2 a b
  | a :: b :: c :: rest => h3 a b c rest (chunk3_induction h0 h1 h2 h3 rest)

theorem dropWhile_append' (p : Char → Bool) (l1 l2 : List Char) :
    (l1 ++ l2).dropWhile p =
      if (l1.dropWhile p).isEmpty then l2.dropWhile p else l1.dropWhile p ++ l2 := by
  induction l1 with
  | nil => simp
  | cons x xs ih =>
    by_cases hx : p x = true
    · simpa [List.dropWhile, hx] using ih
    · simp [List.dropWhile, hx]

theorem dropWhile_eq_self_of_head (p : Char → Bool) (l : List Char)
    (h : ∀ c ∈ l.head?, p c = false) : l.dropWhile p = l := by
  cases l with
  | nil => rfl
  | cons x xs => simp [List.dropWhile, h x (by simp)]

theorem stripPad_append (xs ys : List Char) (h : ∀ c ∈ xs, (c == '=') = false) :
    stripPad (xs ++ ys) = xs ++ stripPad ys := by
  unfold stripPad
  rw [List.reverse_append, dropWhile_append']
  by_cases hemp : (ys.reverse.dropWhile (fun c => c == '=')).isEmpty
  · rw [if_pos hemp]
    rw [List.isEmpty_iff] at hemp
    rw [hemp, dropWhile_eq_self_of_head, List.reverse_reverse, List.reverse_nil,
      List.append_nil]
    intro c hc
    have hm : c ∈ xs.reverse := List.mem_of_mem_head? hc
    rw [List.mem_reverse] at hm
    exact h c hm
  · rw [if_neg hemp, List.reverse_append, List.reverse_reverse]

theorem decode_eq_some_parts {s : List Char} {bs : List ℕ}
    (h : decode s = some bs) :
    ∃ ws, toSextets (stripPad s) = some ws ∧ sextetsToBytes ws = some bs := by
  unfold decode at h
  rcases hts : toSextets (stripPad s) with _ | ws
  · rw [hts] at h; simp at h
  · rw [hts] at h
    exact ⟨ws, rfl, h⟩

theorem toSextets_cons {c : Char} {rest : List Char} {s : ℕ} {ws : List ℕ}
    (h : b64Index c = some s) (hr : toSextets rest = some ws) :
    toSextets (c :: rest) = some (s :: ws) := by
  unfold toSextets
  rw [h, hr]

theorem sextetsToBytes_cons4 {s1 s2 s3 s4 : ℕ} {ws bs : List ℕ}
    (h : sextetsToBytes ws = some bs) :
    sextetsToBytes (s1 :: s2 :: s3 :: s4 :: ws) =
      some ((s1 * 4 + s2 / 16) :: (s2 % 16 * 16 + s3 / 4) :: (s3 % 4 * 64 + s4) :: bs) := by
  unfold sextetsToBytes
  rw [h]

/-- The source's `decode` inverts its `encode` on every byte array. -/
theorem decode_encode : ∀ l : List ℕ, (∀ x ∈ l, x < 256) → decode (encode l) = some l := by
  refine chunk3_induction ?_ ?_ ?_ ?_
  · intro _
    rfl
  · intro a ha
    have ha' : a < 256 := ha a (by simp)
    have h2 : a % 4 * 16 < 64 := by omega
    have h1 : a / 4 < 64 := by omega
    show decode [b64Char (a / 4), b64Char (a % 4 * 16), '=', '='] = some [a]
    have hpad : stripPad [b64Char (a / 4), b64Char (a % 4 * 16), '=', '='] =
        [b64Char (a / 4), b64Char (a % 4 * 16)] := by
      unfold stripPad
      simp [List.dropWhile, b64Char_ne_pad _ h2]
    unfold decode
    rw [hpad,
      toSextets_cons (b64Index_b64Char _ h1)
        (toSextets_cons (b64Index_b64Char _ h2)
          (show toSextets ([] : List Char) = some [] from rfl))]
    show sextetsToBytes [a / 4, a % 4 * 16] = some [a]
    unfold sextetsToBytes
    have : a / 4 * 4 + a % 4 * 16 / 16 = a := by omega
    rw [this]
  · intro a b hab
    have ha : a < 256 := hab a (by simp)
    have hb : b < 256 := hab b (by simp)
    have h1 : a / 4 < 64 := by omega
    have h2 : a % 4 * 16 + b / 16 < 64 := by omega
    have h3 : b % 16 * 4 < 64 := by omega
    show decode [b64Char (a / 4), b64Char (a % 4 * 16 + b / 16), b64Char (b % 16 * 4), '='] =
      some [a, b]
    have hpad : stripPad
        [b64Char (a / 4), b64Char (a % 4 * 16 + b / 16), b64Char (b % 16 * 4), '='] =
        [b64Char (a / 4), b64Char (a % 4 * 16 + b / 16), b64Char (b % 16 * 4)] := by
      unfold stripPad
      simp [List.dropWhile, b64Char_ne_pad _ h3]
    unfold decode
    rw [hpad,
      toSextets_cons (b64Index_b64Char _ h1)
        (toSextets_cons (b64Index_b64Char _ h2)
          (toSextets_cons (b64Index_b64Char _ h3)
            (show toSextets ([] : List Char) = some [] from rfl)))]
    show sextetsToBytes [a / 4, a % 4 * 16 + b / 16, b % 16 * 4] = some [a, b]
    unfold sextetsToBytes
    have e1 : a / 4 * 4 + (a % 4 * 16 + b / 16) / 16 = a := by omega
    have e2 : (a % 4 * 16 + b / 16) % 16 * 16 + b % 16 * 4 / 4 = b := by omega
    rw [e1, e2]
  · intro a b c rest ih habc
    have ha : a < 256 := habc a (by simp)
    have hb : b < 256 := habc b (by simp)
    have hc : c < 256 := habc c (by simp)
    have hrest : ∀ x ∈ rest, x < 256 := fun x hx => habc x (by simp [hx])
    have h1 : a / 4 < 64 := by omega
    have h2 : a % 4 * 16 + b / 16 < 64 := by omega
    have h3 : b % 16 * 4 + c / 64 < 64 := by omega
    have h4 : c % 64 < 64 := by omega
    obtain ⟨ws, hws, hbytes⟩ := decode_eq_some_parts (ih hrest)
    show decode (b64Char (a / 4) :: b64Char (a % 4 * 16 + b / 16) ::
      b64Char (b % 16 * 4 + c / 64) :: b64Char (c % 64) :: encode rest) = some (a :: b :: c :: rest)
    have hsplit : b64Char (a / 4) :: b64Char (a % 4 * 16 + b / 16) ::
        b64Char (b % 16 * 4 + c / 64) :: b64Char (c % 64) :: encode rest =
        [b64Char (a / 4), b64Char (a % 4 * 16 + b / 16),
          b64Char (b % 16 * 4 + c / 64), b64Char (c % 64)] ++ encode rest := by
      simp
    have hnopad : ∀ x ∈ [b64Char (a / 4), b64Char (a % 4 * 16 + b / 16),
        b64Char (b % 16 * 4 + c / 64), b64Char (c % 64)], (x == '=') = false := by
      intro x hx
      simp only [List.mem_cons, List.not_mem_nil, or_false] at hx
      rcases hx with rfl | rfl | rfl | rfl
      · exact b64Char_ne_pad _ h1
      · exact b64Char_ne_pad _ h2
      · exact b64Char_ne_pad _ h3
      · exact b64Char_ne_pad _ h4
    unfold decode
    rw [hsplit, stripPad_append _ _ hnopad]
    have hfour : toSextets ((b64Char (a / 4) :: b64Char (a % 4 * 16 + b / 16) ::
        b64Char (b % 16 * 4 + c / 64) :: b64Char (c % 64) :: []) ++ stripPad (encode rest)) =
        some ((a / 4) :: (a % 4 * 16 + b / 16) :: (b % 16 * 4 + c / 64) :: (c % 64) :: ws) := by
      simp only [List.cons_append, List.nil_append]
      exact toSextets_cons (b64Index_b64Char _ h1)
        (toSextets_cons (b64Index_b64Char _ h2)
          (toSextets_cons (b64Index_b64Char _ h3)
            (toSextets_cons (b64Index_b64Char _ h4) hws)))
    rw [hfour]
    show sextetsToBytes ((a / 4) :: (a % 4 * 16 + b / 16) :: (b % 16 * 4 + c / 64) ::
      (c % 64) :: ws) = some (a :: b :: c :: rest)
    rw [sextetsToBytes_cons4 hbytes]
    have e1 : a / 4 * 4 + (a % 4 * 16 + b / 16) / 16 = a := by omega
    have e2 : (a % 4 * 16 + b / 16) % 16 * 16 + (b % 16 * 4 + c / 64) / 4 = b := by omega
    have e3 : (b % 16 * 4 + c / 64) % 4 * 64 + c % 64 = c := by omega
    rw [e1, e2, e3]

/-! ### PCM pack/unpack: `createBlob` and `decodeAudioData`

The source's `createBlob` writes `data[i] * 32768` into an `Int16Array`;
the ECMAScript `ToInt16` coercion truncates the product toward zero and
reduces it modulo `2^16` into `[-32768, 32767]` (no saturation).  The
`Uint8Array` view over the `Int16Array` buffer yields the two
little-endian bytes of each element.  `decodeAudioData` views the received
bytes as an `Int16Array` — throwing a `RangeError` when the byte length is
odd, modelled by `none` — and divides each element by `32768.0`. -/

/-- Truncation toward zero, the rounding `ToInt16` applies. -/
def truncQ (x : ℚ) : ℤ := if 0 ≤ x then ⌊x⌋ else ⌈x⌉

/-- The ECMAScript `ToInt16` coercion applied on assignment into an
`Int16Array`: truncate toward zero, reduce modulo `2^16`, reinterpret as a
signed 16-bit value. -/
def toInt16 (x : ℚ) : ℤ :=
  if truncQ x % 65536 < 32768 then truncQ x % 65536 else truncQ x % 65536 - 65536

/-- The bytes of the `Uint8Array` view over an `Int16Array` buffer
(little-endian, two bytes per element). -/
def int16sToBytes : List ℤ → List ℕ
  | [] => []
  | v :: rest => (v % 65536).toNat % 256 :: (v % 65536).toNat / 256 :: int16sToBytes rest

/-- The `Int16Array` view over a received byte buffer: two little-endian
bytes per element; `none` models the `RangeError` thrown when the byte
length is not a multiple of 2. -/
def bytesToInt16s : List ℕ → Option (List ℤ)
  | [] => some []
  | [_] => none
  | b0 :: b1 :: rest =>
    match bytesToInt16s rest with
    | none => none
    | some vs =>
      some ((if (b0 : ℤ) + 256 * b1 < 32768 then (b0 : ℤ) + 256 * b1
             else (b0 : ℤ) + 256 * b1 - 65536) :: vs)

/-- The source's `decodeAudioData`: reinterpret the bytes as 16-bit signed
integers and divide each by `32768.0` (the buffer is created mono at the
fixed 24 kHz output rate; sample values are what we model). -/
def decodeAudioData (data : List ℕ) : Option (List ℚ) :=
  (bytesToInt16s data).map fun vs => vs.map fun (v : ℤ) => (v : ℚ) / 32768

/-- The `{ data, mimeType }` object `createBlob` returns. -/
structure Blob where
  data : List Char
  mimeType : String
deriving DecidableEq

/-- The source's `createBlob`: pack the float samples into an `Int16Array`
via `data[i] * 32768` (with `ToInt16` coercion), then base64-encode the
bytes of the buffer. -/
def createBlob (data : List ℚ) : Blob :=
  { data := encode (int16sToBytes (data.map fun s => toInt16 (s * 32768)))
    mimeType := "audio/pcm;rate=16000" }

/-- Uplink encode followed by the symmetric downlink decode: base64-decode
the blob's data and run it through `decodeAudioData`.  `none` models a
thrown exception anywhere on the path. -/
def audioRoundtrip (samples : List ℚ) : Option (List ℚ) :=
  (decode (createBlob samples).data).bind decodeAudioData

/-! ### Helper lemmas for the PCM path -/

/-- Induction in chunks of two, matching the 2-byte grouping. -/
theorem chunk2_induction {P : List ℕ → Prop} (h0 : P []) (h1 : ∀ a, P [a])
    (h2 : ∀ a b rest, P rest → P (a :: b :: rest)) : ∀ l, P l
  | [] => h0
  | [a] => h1 a
  | a :: b :: rest => h2 a b rest (chunk2_induction h0 h1 h2 rest)

theorem truncQ_bounds (x : ℚ) : |(truncQ x : ℚ) - x| < 1 := by
  unfold truncQ
  rw [abs_sub_lt_iff]
  by_cases hx : 0 ≤ x
  · rw [if_pos hx]
    constructor
    · have := Int.floor_le x
      linarith
    · have := Int.sub_one_lt_floor x
      linarith
  · rw [if_neg hx]
    constructor
    · have := Int.ceil_lt_add_one x
      linarith
    · have := Int.le_ceil x
      linarith

theorem truncQ_range {x : ℚ} (h1 : -32768 ≤ x) (h2 : x < 32768) :
    -32768 ≤ truncQ x ∧ truncQ x < 32768 := by
  unfold truncQ
  by_cases hx : 0 ≤ x
  · rw [if_pos hx]
    constructor
    · exact le_trans (by norm_num) (Int.floor_nonneg.mpr hx)
    · have : (⌊x⌋ : ℚ) ≤ x := Int.floor_le x
      have h32 : (⌊x⌋ : ℚ) < 32768 := lt_of_le_of_lt this h2
      exact_mod_cast h32
  · rw [if_neg hx]
    constructor
    · exact_mod_cast le_trans h1 (Int.le_ceil x)
    · have : ⌈x⌉ ≤ 0 := Int.ceil_le.mpr (by
        push_cast
        linarith [lt_of_not_le hx])
      omega

/-- In the signed 16-bit range, `toInt16` is exactly truncation (no wrap). -/
theorem toInt16_eq_truncQ {x : ℚ} (h1 : -32768 ≤ x) (h2 : x < 32768) :
    toInt16 x = truncQ x := by
  obtain ⟨hl, hu⟩ := truncQ_range h1 h2
  unfold toInt16
  split_ifs with hm <;> omega

theorem bytesToInt16s_cons {b0 b1 : ℕ} {bs : List ℕ} {vs : List ℤ}
    (h : bytesToInt16s bs = some vs) :
    bytesToInt16s (b0 :: b1 :: bs) =
      some ((if (b0 : ℤ) + 256 * b1 < 32768 then (b0 : ℤ) + 256 * b1
             else (b0 : ℤ) + 256 * b1 - 65536) :: vs) := by
  unfold bytesToInt16s
  rw [h]

theorem bytesToInt16s_int16sToBytes :
    ∀ vs : List ℤ, (∀ v ∈ vs, -32768 ≤ v ∧ v < 32768) →
      bytesToInt16s (int16sToBytes vs) = some vs := by
  intro vs
  induction vs with
  | nil => intro _; rfl
  | cons v rest ih =>
    intro h
    have hv := h v (by simp)
    have hrest : bytesToInt16s (int16sToBytes rest) = some rest :=
      ih fun w hw => h w (by simp [hw])
    have h1 : int16sToBytes (v :: rest) =
        (v % 65536).toNat % 256 :: (v % 65536).toNat / 256 :: int16sToBytes rest := by
      simp only [int16sToBytes]
    rw [h1]
    conv_lhs => rw [bytesToInt16s_cons hrest]
    simp only [Option.some.injEq, List.cons.injEq]
    refine ⟨?_, trivial⟩
    split_ifs with hlt <;> omega

theorem int16sToBytes_lt : ∀ vs : List ℤ, ∀ x ∈ int16sToBytes vs, x < 256 := by
  intro vs
  induction vs with
  | nil => simp [int16sToBytes]
  | cons v rest ih =>
    intro x hx
    unfold int16sToBytes at hx
    simp only [List.mem_cons] at hx
    rcases hx with rfl | rfl | h
    · omega
    · omega
    · exact ih x h

theorem int16sToBytes_even_length (vs : List ℤ) :
    (int16sToBytes vs).length = 2 * vs.length := by
  induction vs with
  | nil => rfl
  | cons v rest ih => simp [int16sToBytes, ih]; ring

/-- The full uplink-pack / downlink-unpack composition, sample by sample:
it recovers exactly the truncated-and-wrapped 16-bit value of each sample,
divided by 32768. -/
theorem audioRoundtrip_eq (samples : List ℚ)
    (h : ∀ s ∈ samples, -32768 ≤ toInt16 (s * 32768) ∧ toInt16 (s * 32768) < 32768) :
    audioRoundtrip samples =
      some (samples.map fun s => (toInt16 (s * 32768) : ℚ) / 32768) := by
  unfold audioRoundtrip createBlob
  rw [decode_encode _ (int16sToBytes_lt _)]
  show decodeAudioData (int16sToBytes (samples.map fun s => toInt16 (s * 32768))) = _
  unfold decodeAudioData
  rw [bytesToInt16s_int16sToBytes _ (by
    intro v hv
    simp only [List.mem_map] at hv
    obtain ⟨s, hs, rfl⟩ := hv
    exact h s hs)]
  simp only [Option.map_some', List.map_map]
  rfl

theorem toInt16_in_range (x : ℚ) : -32768 ≤ toInt16 x ∧ toInt16 x < 32768 := by
  unfold toInt16
  split_ifs with hm <;> omega

/-! ### Downlink scheduling: the `onmessage` handler and the playback cursor

State of the downlink player: the `nextStartTimeRef` cursor (initially 0)
plus a log of the `(startTime, duration)` pairs passed to
`source.start(...)`, in scheduling order.  `now` models the
`ctx.currentTime` reading of the output context at the handling.  The
handler body is, per the source: bump the cursor to
`max(cursor, ctx.currentTime)`, decode, schedule at the bumped cursor,
advance the cursor by `audioBuffer.duration = frameCount / 24000`.  If the
decode throws, the bump has already happened but nothing is scheduled
(modelled by the `Bool` "raised" flag). -/

structure OutState where
  nextStartTime : ℚ
  scheduled : List (ℚ × ℚ)
deriving DecidableEq

/-- The success path of the handler for a decoded buffer of
`sampleCount` frames. -/
def handleAudioChunk (st : OutState) (now : ℚ) (sampleCount : ℕ) : OutState :=
  { nextStartTime := max st.nextStartTime now + (sampleCount : ℚ) / 24000
    scheduled := st.scheduled ++ [(max st.nextStartTime now, (sampleCount : ℚ) / 24000)] }

/-- The inbound `onmessage` callback.  `payload` is
`msg.serverContent?.modelTurn?.parts?.[0]?.inlineData?.data`: `none` when
absent; the source's guard `if (base64Audio && ...)` also skips an empty
string, hence the `some []` arm.  The returned `Bool` is true when the
handler raises (base64 or `Int16Array` failure). -/
def onmessage (st : OutState) (now : ℚ) (payload : Option (List Char)) : OutState × Bool :=
  match payload with
  | none => (st, false)
  | some [] => (st, false)
  | some b64 =>
    match decode b64 with
    | none => ({ st with nextStartTime := max st.nextStartTime now }, true)
    | some bytes =>
      match decodeAudioData bytes with
      | none => ({ st with nextStartTime := max st.nextStartTime now }, true)
      | some buf => (handleAudioChunk st now buf.length, false)

def initOut : OutState := ⟨0, []⟩

/-- A sequence of successfully decoded audio chunks handled in order; each
event is the clock reading at handling and the chunk's frame count. -/
def runChunks (st : OutState) (events : List (ℚ × ℕ)) : OutState :=
  events.foldl (fun s e => handleAudioChunk s e.1 e.2) st

/-- Every chunk arrives no later than the current playback cursor
("faster than real time"). -/
def fastArrivals : OutState → List (ℚ × ℕ) → Bool
  | _, [] => true
  | st, e :: rest =>
    decide (e.1 ≤ st.nextStartTime) && fastArrivals (handleAudioChunk st e.1 e.2) rest

/-! ### Session lifecycle

The source's four status values and the callbacks that assign them.  Each
callback calls `setStatus` unconditionally: `onopen` sets `connected`,
`onclose` sets `disconnected`, `onerror` sets `error`, and the
`startSession` catch block sets `error`. -/

inductive Status
  | connecting
  | connected
  | disconnected
  | error
deriving DecidableEq

inductive SEvent
  | evOpen
  | evClose
  | evError
  | evCatch
deriving DecidableEq

/-- The status each lifecycle callback assigns, regardless of the current
status (the source calls `setStatus` with a constant in every callback). -/
def applyEvent : Status → SEvent → Status
  | _, .evOpen => .connected
  | _, .evClose => .disconnected
  | _, .evError => .error
  | _, .evCatch => .error

/-- The list of statuses successively taken while handling the events. -/
def statusTrace (s : Status) : List SEvent → List Status
  | [] => []
  | e :: rest => applyEvent s e :: statusTrace (applyEvent s e) rest

/-- The transition relation the specification's state machine allows. -/
def allowedStep : Status → Status → Bool
  | .connecting, .connected => true
  | .connecting, .error => true
  | .connected, .disconnected => true
  | .connected, .error => true
  | _, _ => false

/-- The orderly lifecycle histories: a close or remote error only after
open, nothing after a terminal event, and a startup failure or
pre-open connection error only on its own. -/
def orderlyEvents : List (List SEvent) :=
  [[], [.evError], [.evCatch], [.evOpen], [.evOpen, .evClose], [.evOpen, .evError],
    [.evOpen, .evCatch]]

/-! ### `startSession` control flow

`startSession` awaits, in order: audio-context setup, `getUserMedia`
(failing here means permission denied or no device), then `ai.live.connect`
and the rest of the setup.  Any rejection lands in the catch block, which
only logs the error and sets status `error`.  Dispatches
(`sendRealtimeInput`) happen only from the `onaudioprocess` callback
installed in `onopen` and from the 1-second video snapshot timer installed
after a successful connect; neither is reached on a failure path.  `Env`
records which awaited steps succeed and what the platform callbacks would
deliver while the session is open. -/

inductive ErrKind
  | mediaAccess
  | connectFailure
deriving DecidableEq

structure Env where
  mediaGranted : Bool
  connectOk : Bool
  audioBlocks : List (List ℚ)
  videoTicks : ℕ

inductive Dispatch
  | audio (data : List Char) (mimeType : String)
  | video
deriving DecidableEq

structure SessionRun where
  trace : List Status
  dispatches : List Dispatch
  caught : Option ErrKind
deriving DecidableEq

/-- The observable run of `startSession`: the successive statuses starting
from the initial `connecting`, the `sendRealtimeInput` dispatches, and the
error reaching the catch block (its kind records which awaited step
rejected). -/
def startSession (env : Env) : SessionRun :=
  if env.mediaGranted = false then
    { trace := [.connecting, .error], dispatches := [], caught := some .mediaAccess }
  else if env.connectOk = false then
    { trace := [.connecting, .error], dispatches := [], caught := some .connectFailure }
  else
    { trace := [.connecting, .connected]
      dispatches :=
        (env.audioBlocks.map fun blk =>
          Dispatch.audio (createBlob blk).data (createBlob blk).mimeType) ++
        List.replicate env.videoTicks .video
      caught := none }

/-! ### Scheduling invariants -/

/-- Consecutive scheduled buffers have non-decreasing start times and do
not overlap: each buffer starts no earlier than the previous one's end. -/
def NoOverlap (l : List (ℚ × ℚ)) : Prop :=
  List.Chain' (fun a b => a.1 ≤ b.1 ∧ a.1 + a.2 ≤ b.1) l

/-- Consecutive scheduled buffers are exactly back to back: each starts at
the previous one's end. -/
def Gapless (l : List (ℚ × ℚ)) : Prop :=
  List.Chain' (fun a b => b.1 = a.1 + a.2) l

/-- Run invariant: scheduled durations are nonnegative, every scheduled
buffer ends no later than the cursor, and the log has no overlaps. -/
def GoodState (st : OutState) : Prop :=
  (∀ p ∈ st.scheduled, 0 ≤ p.2 ∧ p.1 + p.2 ≤ st.nextStartTime) ∧ NoOverlap st.scheduled

theorem good_step (st : OutState) (now : ℚ) (n : ℕ) (h : GoodState st) :
    GoodState (handleAudioChunk st now n) := by
  obtain ⟨hb, hchain⟩ := h
  have hd : (0 : ℚ) ≤ (n : ℚ) / 24000 := by positivity
  have hcur : st.nextStartTime ≤ max st.nextStartTime now := le_max_left _ _
  constructor
  · intro p hp
    unfold handleAudioChunk at hp
    simp only [List.mem_append, List.mem_singleton] at hp
    rcases hp with hp | rfl
    · obtain ⟨h1, h2⟩ := hb p hp
      exact ⟨h1, by
        show p.1 + p.2 ≤ max st.nextStartTime now + (n : ℚ) / 24000
        linarith⟩
    · exact ⟨hd, le_refl _⟩
  · unfold handleAudioChunk NoOverlap
    apply List.Chain'.append hchain (List.chain'_singleton _)
    intro x hx y hy
    simp only [List.head?_cons, Option.mem_def, Option.some.injEq] at hy
    subst hy
    have hxm : x ∈ st.scheduled := by
      rcases List.mem_getLast?_eq_getLast hx with ⟨hne, rfl⟩
      exact List.getLast_mem hne
    obtain ⟨h1, h2⟩ := hb x hxm
    constructor
    · show x.1 ≤ max st.nextStartTime now
      linarith
    · show x.1 + x.2 ≤ max st.nextStartTime now
      linarith

theorem good_run : ∀ (events : List (ℚ × ℕ)) (st : OutState),
    GoodState st → GoodState (runChunks st events) := by
  intro events
  induction events with
  | nil => intro st h; exact h
  | cons e rest ih =>
    intro st h
    show GoodState (runChunks (handleAudioChunk st e.1 e.2) rest)
    exact ih _ (good_step st e.1 e.2 h)

/-- Run invariant for the burst case: the cursor equals the end of the last
scheduled buffer (or the log is empty), and the log is gapless. -/
def TightState (st : OutState) : Prop :=
  (st.scheduled = [] ∨
    ∃ p, st.scheduled.getLast? = some p ∧ st.nextStartTime = p.1 + p.2) ∧
  Gapless st.scheduled

theorem tight_step (st : OutState) (now : ℚ) (n : ℕ)
    (hnow : now ≤ st.nextStartTime) (h : TightState st) :
    TightState (handleAudioChunk st now n) := by
  obtain ⟨hlast, hchain⟩ := h
  have hmax : max st.nextStartTime now = st.nextStartTime := max_eq_left hnow
  constructor
  · right
    refine ⟨(max st.nextStartTime now, (n : ℚ) / 24000), ?_, rfl⟩
    unfold handleAudioChunk
    simp
  · unfold handleAudioChunk Gapless
    apply List.Chain'.append hchain (List.chain'_singleton _)
    intro x hx y hy
    simp only [List.head?_cons, Option.mem_def, Option.some.injEq] at hy
    subst hy
    rcases hlast with hnil | ⟨p, hp, hcur⟩
    · rw [hnil] at hx
      simp at hx
    · simp only [Option.mem_def] at hx
      rw [hp] at hx
      simp only [Option.some.injEq] at hx
      subst hx
      show max st.nextStartTime now = p.1 + p.2
      rw [hmax]
      exact hcur

theorem tight_run : ∀ (events : List (ℚ × ℕ)) (st : OutState),
    TightState st → fastArrivals st events = true → TightState (runChunks st events) := by
  intro events
  induction events with
  | nil => intro st h _; exact h
  | cons e rest ih =>
    intro st h hfast
    unfold fastArrivals at hfast
    rw [Bool.and_eq_true, decide_eq_true_eq] at hfast
    show TightState (runChunks (handleAudioChunk st e.1 e.2) rest)
    exact ih _ (tight_step st e.1 e.2 hfast.1 h) hfast.2

/-! ### Further helper lemmas -/

theorem sample_err {s : ℚ} (h1 : -1 ≤ s) (h2 : s < 1) :
    |(toInt16 (s * 32768) : ℚ) / 32768 - s| ≤ 1 / 32768 := by
  have hi1 : (-32768 : ℚ) ≤ s * 32768 := by linarith
  have hi2 : s * 32768 < 32768 := by linarith
  rw [toInt16_eq_truncQ hi1 hi2]
  obtain ⟨ha, hb⟩ := abs_sub_lt_iff.mp (truncQ_bounds (s * 32768))
  rw [abs_le]
  constructor <;> linarith

theorem forall2_roundtrip {samples : List ℚ} (h : ∀ s ∈ samples, -1 ≤ s ∧ s < 1) :
    List.Forall₂ (fun o s => |o - s| ≤ 1 / 32768)
      (samples.map fun s => (toInt16 (s * 32768) : ℚ) / 32768) samples := by
  induction samples with
  | nil => exact List.Forall₂.nil
  | cons a rest ih =>
    refine List.Forall₂.cons ?_ (ih fun s hs => h s (by simp [hs]))
    obtain ⟨h1, h2⟩ := h a (by simp)
    exact sample_err h1 h2

theorem toInt16_zero : toInt16 ((0 : ℚ) * 32768) = 0 := by
  have h : truncQ ((0 : ℚ) * 32768) = 0 := by
    unfold truncQ
    norm_num
  unfold toInt16
  rw [h]
  decide

theorem bytesToInt16s_cons_none {b0 b1 : ℕ} {bs : List ℕ}
    (h : bytesToInt16s bs = none) : bytesToInt16s (b0 :: b1 :: bs) = none := by
  unfold bytesToInt16s
  rw [h]

theorem bytesToInt16s_odd :
    ∀ bytes : List ℕ, bytes.length % 2 = 1 → bytesToInt16s bytes = none := by
  refine chunk2_induction ?_ ?_ ?_
  · intro h
    simp at h
  · intro a _
    rfl
  · intro a b rest ih h
    have : rest.length % 2 = 1 := by
      simp only [List.length_cons] at h
      omega
    exact bytesToInt16s_cons_none (ih this)

theorem sample_of_int16 {v : ℤ} (h1 : -32768 ≤ v) (h2 : v < 32768) :
    -1 ≤ (v : ℚ) / 32768 ∧ (v : ℚ) / 32768 < 1 := by
  have hc1 : (-32768 : ℚ) ≤ (v : ℚ) := by exact_mod_cast h1
  have hc2 : (v : ℚ) < 32768 := by exact_mod_cast h2
  constructor
  · rw [le_div_iff₀ (by norm_num : (0 : ℚ) < 32768)]
    linarith
  · rw [div_lt_one (by norm_num : (0 : ℚ) < 32768)]
    exact hc2

theorem bytesToInt16s_even :
    ∀ bytes : List ℕ, (∀ b ∈ bytes, b < 256) → bytes.length % 2 = 0 →
      ∃ vs, bytesToInt16s bytes = some vs ∧ vs.length = bytes.length / 2 ∧
        ∀ v ∈ vs, -32768 ≤ v ∧ v < 32768 := by
  refine chunk2_induction ?_ ?_ ?_
  · intro _ _
    exact ⟨[], rfl, rfl, by simp⟩
  · intro a _ h
    simp at h
  · intro a b rest ih hlt hlen
    have ha : a < 256 := hlt a (by simp)
    have hb : b < 256 := hlt b (by simp)
    have hrlen : rest.length % 2 = 0 := by
      simp only [List.length_cons] at hlen
      omega
    obtain ⟨vs, hvs, hlenvs, hbound⟩ := ih (fun x hx => hlt x (by simp [hx])) hrlen
    refine ⟨(if (a : ℤ) + 256 * b < 32768 then (a : ℤ) + 256 * b
             else (a : ℤ) + 256 * b - 65536) :: vs, bytesToInt16s_cons hvs, ?_, ?_⟩
    · simp only [List.length_cons, hlenvs]
      omega
    · rw [List.forall_mem_cons]
      constructor
      · split_ifs with hlt2 <;> omega
      · exact hbound

theorem decodeAudioData_of_int16s {bytes : List ℕ} {vs : List ℤ}
    (h : bytesToInt16s bytes = some vs) :
    decodeAudioData bytes = some (vs.map fun (v : ℤ) => (v : ℚ) / 32768) := by
  unfold decodeAudioData
  rw [h, Option.map_some']

theorem onmessage_some_cons (st : OutState) (now : ℚ) (c : Char) (cs : List Char) :
    onmessage st now (some (c :: cs)) =
      match decode (c :: cs) with
      | none => ({ st with nextStartTime := max st.nextStartTime now }, true)
      | some bytes =>
        match decodeAudioData bytes with
        | none => ({ st with nextStartTime := max st.nextStartTime now }, true)
        | some buf => (handleAudioChunk st now buf.length, false) := rfl

/-! ### Case analysis of `onmessage` -/

theorem onmessage_decode_fail (st : OutState) (now : ℚ) (c : Char) (cs : List Char)
    (hdec : decode (c :: cs) = none) :
    onmessage st now (some (c :: cs)) =
      ({ st with nextStartTime := max st.nextStartTime now }, true) := by
  rw [onmessage_some_cons]
  split
  · rfl
  · next bytes h =>
    rw [hdec] at h <;> simp at h

theorem onmessage_audio_fail (st : OutState) (now : ℚ) (c : Char) (cs : List Char)
    (bytes : List ℕ) (hdec : decode (c :: cs) = some bytes)
    (hda : decodeAudioData bytes = none) :
    onmessage st now (some (c :: cs)) =
      ({ st with nextStartTime := max st.nextStartTime now }, true) := by
  rw [onmessage_some_cons]
  split
  · next h =>
    rw [hdec] at h <;> simp at h
  · next bytes2 h =>
    rw [hdec] at h
    injection h with h
    subst h
    split
    · rfl
    · next buf h2 =>
      rw [hda] at h2 <;> simp at h2

theorem onmessage_success (st : OutState) (now : ℚ) (c : Char) (cs : List Char)
    (bytes : List ℕ) (buf : List ℚ) (hdec : decode (c :: cs) = some bytes)
    (hda : decodeAudioData bytes = some buf) :
    onmessage st now (some (c :: cs)) = (handleAudioChunk st now buf.length, false) := by
  rw [onmessage_some_cons]
  split
  · next h =>
    rw [hdec] at h <;> simp at h
  · next bytes2 h =>
    rw [hdec] at h
    injection h with h
    subst h
    split
    · next h2 =>
      rw [hda] at h2 <;> simp at h2
    · next buf2 h2 =>
      rw [hda] at h2
      injection h2 with h2
      subst h2
      rfl

/-! ### Concrete conversion values -/

theorem toInt16_at_7_131072 : toInt16 ((7 / 131072 : ℚ) * 32768) = 1 := by
  have h74 : (7 / 131072 : ℚ) * 32768 = 7 / 4 := by norm_num
  have ht : truncQ ((7 : ℚ) / 4) = 1 := by
    unfold truncQ
    rw [if_pos (by norm_num : (0 : ℚ) ≤ 7 / 4)]
    norm_num
  rw [h74]
  unfold toInt16
  rw [ht]
  decide

theorem round_at_7_131072 : round ((7 / 131072 : ℚ) * 32768) = 2 := by
  norm_num [round_eq]

theorem toInt16_at_3_2 : toInt16 ((3 / 2 : ℚ) * 32768) = -16384 := by
  have h32 : (3 / 2 : ℚ) * 32768 = 49152 := by norm_num
  have ht : truncQ ((49152 : ℚ)) = 49152 := by
    unfold truncQ
    rw [if_pos (by norm_num : (0 : ℚ) ≤ 49152)]
    norm_num
  rw [h32]
  unfold toInt16
  rw [ht]
  decide

theorem toInt16_at_one : toInt16 ((1 : ℚ) * 32768) = -32768 := by
  have h1 : truncQ ((1 : ℚ) * 32768) = 32768 := by
    unfold truncQ
    rw [if_pos (by norm_num : (0 : ℚ) ≤ (1 : ℚ) * 32768)]
    norm_num
  unfold toInt16
  rw [h1]
  decide

/-! ### Claim theorems -/

/-- C1: for every sequence of inbound audio chunks handled in order, the
scheduled start times are non-decreasing and no two scheduled buffers
overlap (each start is at least the previous start plus its duration);
when every chunk arrives no later than the current playback cursor
(faster than real time), each chunk starts exactly at the previous chunk's
end; and for two back-to-back chunks of 2400 and 1200 samples at 24 kHz
handled at clock 0, the log is exactly `[(0, 1/10), (1/10, 1/20)]`, so the
second starts exactly 0.1 s after the first. -/
theorem claim1_gapless_nonoverlapping_scheduling :
    (∀ events : List (ℚ × ℕ), NoOverlap (runChunks initOut events).scheduled) ∧
    (∀ events : List (ℚ × ℕ), fastArrivals initOut events = true →
      Gapless (runChunks initOut events).scheduled) ∧
    (runChunks initOut [(0, 2400), (0, 1200)]).scheduled =
      [(0, 1 / 10), (1 / 10, 1 / 20)] := by
  refine ⟨?_, ?_, ?_⟩
  · intro events
    exact (good_run events initOut
      ⟨fun p hp => absurd hp (List.not_mem_nil p), List.chain'_nil⟩).2
  · intro events hfast
    exact (tight_run events initOut ⟨Or.inl rfl, List.chain'_nil⟩ hfast).2
  · show (handleAudioChunk (handleAudioChunk initOut 0 2400) 0 1200).scheduled = _
    have h1 : handleAudioChunk initOut 0 2400 = ⟨1 / 10, [(0, 1 / 10)]⟩ := by
      unfold handleAudioChunk initOut
      norm_num
    rw [h1]
    unfold handleAudioChunk
    norm_num

/-- C1 witness: the fast-arrival conjunct applied to the concrete
back-to-back 2400/1200-sample burst. -/
theorem claim1_witness :
    Gapless (runChunks initOut [(0, 2400), (0, 1200)]).scheduled := by
  have hfast : fastArrivals initOut [(0, 2400), (0, 1200)] = true := by
    simp only [fastArrivals, handleAudioChunk, initOut, Bool.and_eq_true, decide_eq_true_eq]
    norm_num
  exact claim1_gapless_nonoverlapping_scheduling.2.1 [(0, 2400), (0, 1200)] hfast

/-- C2: across every execution of the `onmessage` handler the playback
cursor never decreases; and on every successfully handled audio message
the buffer is scheduled exactly at `max(cursor, clock)`, the cursor
advances to exactly that start plus `sampleCount / 24000`, and ends up at
or above the clock reading taken at the handling. -/
theorem claim2_cursor_invariant :
    ∀ (st : OutState) (now : ℚ) (payload : Option (List Char)),
      st.nextStartTime ≤ (onmessage st now payload).1.nextStartTime ∧
      ∀ (b64 : List Char) (bytes : List ℕ) (buf : List ℚ),
        payload = some b64 → b64 ≠ [] → decode b64 = some bytes →
        decodeAudioData bytes = some buf →
        (onmessage st now payload).1.nextStartTime =
          max st.nextStartTime now + (buf.length : ℚ) / 24000 ∧
        (onmessage st now payload).1.scheduled =
          st.scheduled ++ [(max st.nextStartTime now, (buf.length : ℚ) / 24000)] ∧
        now ≤ (onmessage st now payload).1.nextStartTime := by
  intro st now payload
  constructor
  · rcases payload with _ | b64
    · exact le_refl _
    · rcases b64 with _ | ⟨c, cs⟩
      · exact le_refl _
      · rcases hdec : decode (c :: cs) with _ | bytes
        · rw [onmessage_decode_fail st now c cs hdec]
          exact le_max_left _ _
        · rcases hda : decodeAudioData bytes with _ | buf
          · rw [onmessage_audio_fail st now c cs bytes hdec hda]
            exact le_max_left _ _
          · rw [onmessage_success st now c cs bytes buf hdec hda]
            have hd : (0 : ℚ) ≤ (buf.length : ℚ) / 24000 := by positivity
            have hm := le_max_left st.nextStartTime now
            show st.nextStartTime ≤ max st.nextStartTime now + (buf.length : ℚ) / 24000
            linarith
  · intro b64 bytes buf hp hne hdec hda
    subst hp
    rcases b64 with _ | ⟨c, cs⟩
    · exact absurd rfl hne
    · rw [onmessage_success st now c cs bytes buf hdec hda]
      refine ⟨rfl, rfl, ?_⟩
      show now ≤ max st.nextStartTime now + (buf.length : ℚ) / 24000
      have hm := le_max_right st.nextStartTime now
      have hd : (0 : ℚ) ≤ (buf.length : ℚ) / 24000 := by positivity
      linarith

/-- C2 witness: a one-frame chunk (base64 `AAA=` decoding to bytes
`[0, 0]`, one 16-bit sample) handled at clock 5 from the initial state
moves the cursor to `5 + 1/24000`. -/
theorem claim2_witness :
    (onmessage initOut 5 (some ['A', 'A', 'A', '='])).1.nextStartTime = 5 + 1 / 24000 := by
  have hda : decodeAudioData [0, 0] = some [0] := by
    rw [decodeAudioData_of_int16s (show bytesToInt16s [0, 0] = some [0] by decide)]
    simp
  have h := (claim2_cursor_invariant initOut 5 (some ['A', 'A', 'A', '='])).2
    ['A', 'A', 'A', '='] [0, 0] [0] rfl (by simp) (by decide) hda
  rw [h.1]
  rw [show initOut.nextStartTime = (0 : ℚ) from rfl,
    max_eq_right (by norm_num : (0 : ℚ) ≤ 5)]
  norm_num

/-- C3 counterexample: the claim fails for the normalized sample `1`:
`createBlob` wraps `1 * 32768` to `-32768`, so the round trip returns
`-1`, an error of 2, far beyond one quantization step. -/
theorem claim3_counterexample :
    audioRoundtrip [(1 : ℚ)] = some [(-1 : ℚ)] ∧
    ¬(|(-1 : ℚ) - 1| ≤ 1 / 32768) := by
  constructor
  · rw [audioRoundtrip_eq [(1 : ℚ)] (fun s _ => toInt16_in_range _)]
    simp only [List.map_cons, List.map_nil, toInt16_at_one]
    norm_num
  · rw [show ((-1 : ℚ) - 1) = -2 by norm_num, abs_neg, abs_two]
    norm_num

/-- C3 amended: for every block whose samples lie in `[-1, 1)` the
encode/decode round trip reproduces each sample to within `1/32768`
(at `1` itself the int16 wrap makes the error 2); and a block of 4096
zero samples decodes back to 4096 zeros exactly. -/
theorem claim3_roundtrip_quantization :
    (∀ samples : List ℚ, (∀ s ∈ samples, -1 ≤ s ∧ s < 1) →
      ∃ out, audioRoundtrip samples = some out ∧
        List.Forall₂ (fun o s => |o - s| ≤ 1 / 32768) out samples) ∧
    audioRoundtrip (List.replicate 4096 0) = some (List.replicate 4096 0) := by
  constructor
  · intro samples h
    exact ⟨_, audioRoundtrip_eq samples (fun s _ => toInt16_in_range _),
      forall2_roundtrip h⟩
  · rw [audioRoundtrip_eq _ (fun s _ => toInt16_in_range _)]
    simp only [List.map_replicate, toInt16_zero]
    rw [show (((0 : ℤ) : ℚ)) / 32768 = 0 by norm_num]

/-- C3 witness: the amended round-trip bound applied to the one-sample
block `[1/2]`. -/
theorem claim3_witness :
    ∃ out, audioRoundtrip [(1 : ℚ) / 2] = some out ∧
      List.Forall₂ (fun o s => |o - s| ≤ 1 / 32768) out [(1 : ℚ) / 2] :=
  claim3_roundtrip_quantization.1 [(1 : ℚ) / 2] (by
    intro s hs
    rw [List.mem_singleton] at hs
    subst hs
    norm_num)

/-- C4 counterexample: the uplink conversion is not `round(s * 32768)`:
for `s = 7/131072` (an exact float) the product is `1.75`, which the code
truncates to `1` while rounding gives `2`. -/
theorem claim4_counterexample :
    toInt16 ((7 / 131072 : ℚ) * 32768) = 1 ∧
    round ((7 / 131072 : ℚ) * 32768) = 2 :=
  ⟨toInt16_at_7_131072, round_at_7_131072⟩

/-- C4 amended: the uplink conversion truncates `s * 32768` toward zero
(for `s` in `[-1, 1)` the stored int16 is exactly the truncation), does
not round (it differs from `round` at `7/131072`), and does not clamp:
the out-of-range sample `3/2` wraps to `-16384` instead of saturating. -/
theorem claim4_truncation_no_clamp :
    (∀ s : ℚ, -1 ≤ s → s < 1 → toInt16 (s * 32768) = truncQ (s * 32768)) ∧
    toInt16 ((3 / 2 : ℚ) * 32768) = -16384 ∧
    toInt16 ((7 / 131072 : ℚ) * 32768) ≠ round ((7 / 131072 : ℚ) * 32768) := by
  refine ⟨?_, toInt16_at_3_2, ?_⟩
  · intro s h1 h2
    exact toInt16_eq_truncQ (by linarith) (by linarith)
  · rw [toInt16_at_7_131072, round_at_7_131072]
    decide

/-- C4 witness: the in-range truncation conjunct applied at `s = 1/2`. -/
theorem claim4_witness :
    toInt16 ((1 / 2 : ℚ) * 32768) = truncQ ((1 / 2 : ℚ) * 32768) :=
  claim4_truncation_no_clamp.1 (1 / 2) (by norm_num) (by norm_num)

/-- C5 counterexample: the lifecycle callbacks assign statuses
unconditionally, so a close event received while still `connecting` moves
the status straight to `disconnected` — a transition the claimed state
machine does not allow. -/
theorem claim5_counterexample :
    applyEvent Status.connecting SEvent.evClose = Status.disconnected ∧
    allowedStep Status.connecting Status.disconnected = false :=
  ⟨rfl, rfl⟩

/-- C5 amended: for the orderly lifecycle histories (open before any
close or remote error, nothing after a terminal event, startup failures
and pre-open errors on their own) every transition taken is one of:
CONNECTING→CONNECTED, CONNECTING→ERROR, CONNECTED→DISCONNECTED,
CONNECTED→ERROR; in particular DISCONNECTED and ERROR are never left. -/
theorem claim5_state_machine :
    ∀ evts ∈ orderlyEvents,
      List.Chain' (fun a b => allowedStep a b = true)
        (Status.connecting :: statusTrace Status.connecting evts) := by
  intro evts h
  simp only [orderlyEvents, List.mem_cons, List.not_mem_nil, or_false] at h
  rcases h with rfl | rfl | rfl | rfl | rfl | rfl | rfl <;>
    simp only [statusTrace, applyEvent, List.chain'_cons, List.chain'_singleton] <;>
    decide

/-- C5 witness: the amended machine applied to the normal
open-then-close history. -/
theorem claim5_witness :
    List.Chain' (fun a b => allowedStep a b = true)
      (Status.connecting :: statusTrace Status.connecting [SEvent.evOpen, SEvent.evClose]) :=
  claim5_state_machine [SEvent.evOpen, SEvent.evClose] (by decide)

/-- C6: when the capture request is denied, `startSession` goes straight
from `connecting` to `error`, the caught failure is the media-access
error, and no `sendRealtimeInput` dispatch (audio or video) ever
happens. -/
theorem claim6_media_denied :
    ∀ env : Env, env.mediaGranted = false →
      startSession env =
        { trace := [Status.connecting, Status.error], dispatches := [],
          caught := some ErrKind.mediaAccess } := by
  intro env h
  unfold startSession
  rw [if_pos h]

/-- C6 witness: a concrete environment with media denied but a healthy
connection and pending capture data. -/
theorem claim6_witness :
    startSession ⟨false, true, [[1 / 2]], 3⟩ =
      { trace := [Status.connecting, Status.error], dispatches := [],
        caught := some ErrKind.mediaAccess } :=
  claim6_media_denied ⟨false, true, [[1 / 2]], 3⟩ rfl

/-- C7: an inbound message without an audio payload (and likewise one
whose payload is the falsy empty string) leaves the handler state —
playback cursor and schedule log — unchanged and raises nothing. -/
theorem claim7_no_audio_ignored :
    ∀ (st : OutState) (now : ℚ),
      onmessage st now none = (st, false) ∧
      onmessage st now (some []) = (st, false) :=
  fun _ _ => ⟨rfl, rfl⟩

/-- C8: the uplink's base64 `encode` and the downlink's `decode` are
mutually inverse on every byte array. -/
theorem claim8_base64_roundtrip :
    ∀ bytes : List ℕ, (∀ x ∈ bytes, x < 256) → decode (encode bytes) = some bytes :=
  decode_encode

/-- C8 witness: the round trip on the concrete bytes `[0, 127, 255]`. -/
theorem claim8_witness : decode (encode [0, 127, 255]) = some [0, 127, 255] :=
  claim8_base64_roundtrip [0, 127, 255] (by decide)

/-- C9: for every even-length byte payload, `decodeAudioData` yields a
buffer of exactly `byteLength / 2` samples, each in `[-1, 1)`. -/
theorem claim9_decoded_buffer_shape :
    ∀ bytes : List ℕ, (∀ b ∈ bytes, b < 256) → bytes.length % 2 = 0 →
      ∃ out, decodeAudioData bytes = some out ∧ out.length = bytes.length / 2 ∧
        ∀ s ∈ out, -1 ≤ s ∧ s < 1 := by
  intro bytes hb hlen
  obtain ⟨vs, hvs, hvslen, hbound⟩ := bytesToInt16s_even bytes hb hlen
  refine ⟨_, decodeAudioData_of_int16s hvs, ?_, ?_⟩
  · simpa using hvslen
  · intro s hs
    simp only [List.mem_map] at hs
    obtain ⟨v, hv, rfl⟩ := hs
    exact sample_of_int16 (hbound v hv).1 (hbound v hv).2

/-- C9 witness: the bytes `[0, 128]` decode to one sample (`-1`). -/
theorem claim9_witness :
    ∃ out, decodeAudioData [0, 128] = some out ∧
      out.length = [0, 128].length / 2 ∧ ∀ s ∈ out, -1 ≤ s ∧ s < 1 :=
  claim9_decoded_buffer_shape [0, 128] (by decide) (by decide)

/-- C10: every odd-byte-length payload makes `decodeAudioData` raise (the
`Int16Array` view cannot be constructed), so malformed chunks are not
skipped: concretely, the payload `AA==` decodes to the single byte `[0]`
and the handler raises on it. -/
theorem claim10_odd_payload_raises :
    (∀ bytes : List ℕ, bytes.length % 2 = 1 → decodeAudioData bytes = none) ∧
    decode ['A', 'A', '=', '='] = some [0] ∧
    (onmessage initOut 0 (some ['A', 'A', '=', '='])).2 = true := by
  refine ⟨?_, by decide, by decide⟩
  intro bytes h
  unfold decodeAudioData
  rw [bytesToInt16s_odd bytes h]
  rfl

/-- C10 witness: the universal odd-length conjunct applied to the
single-byte payload `[0]`. -/
theorem claim10_witness : decodeAudioData [0] = none :=
  claim10_odd_payload_raises.1 [0] (by decide)

end LiveSession
